import Mathlib

/-!
Verification of the date-range and streak engine of the habit-tracker web
application.

The engine lives in `src/app/dashboard/page.tsx` and `src/app/analytics/page.tsx`.
Day identifiers are `YYYY-MM-DD` strings; all date arithmetic in the source goes
through JavaScript `Date` objects built from local calendar fields
(`new Date(year, month - 1, day)`) and mutated with `setDate` / `setMonth` /
`setFullYear`, which normalize out-of-range fields against the proleptic
Gregorian calendar.  We embed a day identifier as its calendar-field triple
`(year, month, day)` (the `YYYY-MM-DD` encoding is injective on valid dates, and
lexicographic string order agrees with calendar order for the four-digit years
the application produces), and JavaScript's single-step field normalization as
day-by-day calendar stepping, which agrees with it on valid dates.
-/

namespace HabitTracker

/-- A calendar date, the embedding of a `YYYY-MM-DD` day-identifier string:
`year`-`month`-`day` with `month` 1-based (the source's JS `Date` months are
0-based; every construction site adds/subtracts 1, so we keep 1-based fields
throughout). -/
structure Date where
  year : Int
  month : Int
  day : Int
deriving DecidableEq

/-- Gregorian leap-year rule: divisible by 4, except centuries not divisible
by 400.  This is the rule JavaScript `Date` normalization implements; the
source never spells it out but inherits it from `new Date(y, 1, 29)` etc. -/
def isLeap (y : Int) : Bool :=
  decide ((y % 4 = 0 ∧ ¬ y % 100 = 0) ∨ y % 400 = 0)

/-- Number of days in a month, as the source computes it with
`new Date(year, month + 1, 0).getDate()` (dashboard `dateRange`, month view). -/
def daysInMonth (y m : Int) : Int :=
  if m = 2 then (if isLeap y then 29 else 28)
  else if m = 4 ∨ m = 6 ∨ m = 9 ∨ m = 11 then 30
  else 31

/-- A well-formed day identifier: the month is 1..12 and the day exists in
that month (the spec's `MalformedDate`-free precondition). -/
def Valid (d : Date) : Prop :=
  1 ≤ d.month ∧ d.month ≤ 12 ∧ 1 ≤ d.day ∧ d.day ≤ daysInMonth d.year d.month

instance (d : Date) : Decidable (Valid d) := by
  unfold Valid; infer_instance

/-- Step one day forward, as JS `d.setDate(d.getDate() + 1)` does (rolling over
month and year ends). -/
def nextDay (d : Date) : Date :=
  if d.day < daysInMonth d.year d.month then ⟨d.year, d.month, d.day + 1⟩
  else if d.month < 12 then ⟨d.year, d.month + 1, 1⟩
  else ⟨d.year + 1, 1, 1⟩

/-- Step one day backward, as JS `d.setDate(d.getDate() - 1)` does (rolling
back over month and year starts). -/
def prevDay (d : Date) : Date :=
  if 1 < d.day then ⟨d.year, d.month, d.day - 1⟩
  else if 1 < d.month then ⟨d.year, d.month - 1, daysInMonth d.year (d.month - 1)⟩
  else ⟨d.year - 1, 12, 31⟩

/-- Strict calendar (lexicographic field) order on dates. -/
def dateLt (a b : Date) : Prop :=
  a.year < b.year ∨
    (a.year = b.year ∧ (a.month < b.month ∨ (a.month = b.month ∧ a.day < b.day)))

instance (a b : Date) : Decidable (dateLt a b) := by
  unfold dateLt; infer_instance

/-- Reflexive closure of `dateLt`. -/
def dateLe (a b : Date) : Prop :=
  dateLt a b ∨ a = b

instance (a b : Date) : Decidable (dateLe a b) := by
  unfold dateLe; infer_instance

theorem daysInMonth_lb (y m : Int) : 28 ≤ daysInMonth y m := by
  unfold daysInMonth; split_ifs <;> omega

theorem daysInMonth_ub (y m : Int) : daysInMonth y m ≤ 31 := by
  unfold daysInMonth; split_ifs <;> omega

theorem daysInMonth_dec (y : Int) : daysInMonth (y - 1) 12 = 31 := by
  unfold daysInMonth; norm_num

theorem dateLt_trans {a b c : Date} (hab : dateLt a b) (hbc : dateLt b c) :
    dateLt a c := by
  obtain ⟨ay, am, ad⟩ := a; obtain ⟨yb, bm, bd⟩ := b; obtain ⟨cy, cm, cd⟩ := c
  unfold dateLt at *
  dsimp only at *
  omega

theorem dateLt_irrefl (a : Date) : ¬ dateLt a a := by
  obtain ⟨ay, am, ad⟩ := a
  unfold dateLt
  dsimp only
  omega

theorem prevDay_dateLt (d : Date) : dateLt (prevDay d) d := by
  obtain ⟨y, m, dd⟩ := d
  unfold prevDay dateLt
  dsimp only
  split_ifs <;> dsimp only <;> omega

theorem dateLe_of_le_lt {a b c : Date} (hab : dateLe a b) (hbc : dateLt b c) :
    dateLe a c := by
  rcases hab with h | rfl
  · exact Or.inl (dateLt_trans h hbc)
  · exact Or.inl hbc

/-- Validity is preserved by stepping forward. -/
theorem valid_nextDay {d : Date} (h : Valid d) : Valid (nextDay d) := by
  obtain ⟨y, m, dd⟩ := d
  unfold Valid at h ⊢
  unfold nextDay
  dsimp only at h ⊢
  have ha := daysInMonth_lb y (m + 1)
  have hb := daysInMonth_lb (y + 1) 1
  split_ifs <;> dsimp only <;> omega

/-- Validity is preserved by stepping backward. -/
theorem valid_prevDay {d : Date} (h : Valid d) : Valid (prevDay d) := by
  obtain ⟨y, m, dd⟩ := d
  unfold Valid at h ⊢
  unfold prevDay
  dsimp only at h ⊢
  have ha := daysInMonth_lb y (m - 1)
  have hb : daysInMonth (y - 1) 12 = 31 := daysInMonth_dec y
  split_ifs <;> dsimp only <;> omega

/-- Stepping forward then backward returns to a valid date. -/
theorem prevDay_nextDay {d : Date} (h : Valid d) : prevDay (nextDay d) = d := by
  obtain ⟨y, m, dd⟩ := d
  unfold Valid at h
  dsimp only at h
  unfold nextDay
  dsimp only
  split_ifs with hd hm
  · unfold prevDay
    dsimp only
    rw [if_pos (by omega)]
    simp only [Date.mk.injEq, true_and, and_true]
    omega
  · unfold prevDay
    dsimp only
    rw [if_neg (by omega), if_pos (by omega)]
    simp only [Date.mk.injEq, add_sub_cancel_right, true_and, and_true]
    omega
  · unfold prevDay
    dsimp only
    rw [if_neg (by omega), if_neg (by omega)]
    simp only [Date.mk.injEq, add_sub_cancel_right, true_and, and_true]
    have hm12 : m = 12 := by omega
    subst hm12
    have h31 : daysInMonth y 12 = 31 := by unfold daysInMonth; norm_num
    omega

/-- Stepping backward then forward returns to a valid date. -/
theorem nextDay_prevDay {d : Date} (h : Valid d) : nextDay (prevDay d) = d := by
  obtain ⟨y, m, dd⟩ := d
  unfold Valid at h
  dsimp only at h
  unfold prevDay
  dsimp only
  split_ifs with hd hm
  · unfold nextDay
    dsimp only
    rw [if_pos (by omega)]
    simp only [Date.mk.injEq, true_and, and_true]
    omega
  · unfold nextDay
    dsimp only
    rw [if_neg (by omega), if_pos (by omega)]
    simp only [Date.mk.injEq, sub_add_cancel, true_and, and_true]
    omega
  · unfold nextDay
    dsimp only
    have h31 : daysInMonth (y - 1) 12 = 31 := daysInMonth_dec y
    rw [if_neg (by omega), if_neg (by omega)]
    simp only [Date.mk.injEq, sub_add_cancel, true_and, and_true]
    omega

/-- Number of Gregorian leap years in `[1, y]` for `y ≥ 0` (continued by the
same floor formula to negative years); only its one-step difference matters. -/
def leapsUpto (y : Int) : Int :=
  y / 4 - y / 100 + y / 400

/-- Days in the months of year `y` strictly before month `m` (for `m` in
1..12). -/
def cumDaysBefore (y m : Int) : Int :=
  (if m = 1 then 0 else if m = 2 then 31 else if m = 3 then 59
   else if m = 4 then 90 else if m = 5 then 120 else if m = 6 then 151
   else if m = 7 then 181 else if m = 8 then 212 else if m = 9 then 243
   else if m = 10 then 273 else if m = 11 then 304 else if m = 12 then 334
   else 0)
  + (if 3 ≤ m ∧ m ≤ 12 ∧ isLeap y then 1 else 0)

/-- Rata-Die day number of a date (days from an absolute epoch; with this
formula `toRD ⟨1, 1, 1⟩ = 1`).  Mirrors the timestamp JavaScript associates to
a calendar day: consecutive calendar days have consecutive numbers. -/
def toRD (d : Date) : Int :=
  365 * (d.year - 1) + leapsUpto (d.year - 1) + cumDaysBefore d.year d.month + d.day

theorem leapsUpto_step (y : Int) :
    leapsUpto y - leapsUpto (y - 1) = if isLeap y then 1 else 0 := by
  unfold leapsUpto isLeap
  simp only [decide_eq_true_eq]
  split_ifs <;> omega

theorem cumDaysBefore_step (y m : Int) (h1 : 1 ≤ m) (h2 : m ≤ 11) :
    cumDaysBefore y (m + 1) = cumDaysBefore y m + daysInMonth y m := by
  interval_cases m <;>
    simp only [cumDaysBefore, daysInMonth] <;>
    norm_num <;>
    split_ifs <;>
    omega

theorem cumDaysBefore_one (y : Int) : cumDaysBefore y 1 = 0 := by
  unfold cumDaysBefore; norm_num

theorem cumDaysBefore_twelve (y : Int) :
    cumDaysBefore y 12 = 334 + (if isLeap y then 1 else 0) := by
  unfold cumDaysBefore
  norm_num

/-- Stepping a valid date forward advances its day number by exactly one. -/
theorem toRD_nextDay {d : Date} (h : Valid d) : toRD (nextDay d) = toRD d + 1 := by
  obtain ⟨y, m, dd⟩ := d
  unfold Valid at h
  dsimp only at h
  unfold nextDay
  dsimp only
  split_ifs with hd hm
  · unfold toRD
    dsimp only
    omega
  · unfold toRD
    dsimp only
    have hstep := cumDaysBefore_step y m (by omega) (by omega)
    omega
  · have hm12 : m = 12 := by omega
    subst hm12
    have h31 : daysInMonth y 12 = 31 := by unfold daysInMonth; norm_num
    unfold toRD
    dsimp only
    have e : y + 1 - 1 = y := by ring
    rw [e, cumDaysBefore_one, cumDaysBefore_twelve]
    have hstep := leapsUpto_step y
    split_ifs at hstep ⊢ <;> omega

/-- Stepping a valid date backward decreases its day number by exactly one. -/
theorem toRD_prevDay {d : Date} (h : Valid d) : toRD (prevDay d) = toRD d - 1 := by
  have hv := valid_prevDay h
  have hnext := toRD_nextDay hv
  rw [nextDay_prevDay h] at hnext
  omega

/-- Shift a day identifier by a signed number of days; embedding of the
source's `addDays(dateStr, days)` (parse local fields, `setDate(getDate() +
days)`, re-render), whose normalization on a valid date equals stepping one
day at a time. -/
def addDays (d : Date) (k : Int) : Date :=
  if 0 ≤ k then nextDay^[k.toNat] d else prevDay^[(-k).toNat] d

theorem valid_nextDay_iterate {d : Date} (h : Valid d) (n : Nat) :
    Valid (nextDay^[n] d) := by
  induction n generalizing d with
  | zero => simpa using h
  | succ n ih =>
      rw [Function.iterate_succ_apply]
      exact ih (valid_nextDay h)

theorem valid_prevDay_iterate {d : Date} (h : Valid d) (n : Nat) :
    Valid (prevDay^[n] d) := by
  induction n generalizing d with
  | zero => simpa using h
  | succ n ih =>
      rw [Function.iterate_succ_apply]
      exact ih (valid_prevDay h)

theorem prevDay_nextDay_iterate {d : Date} (h : Valid d) (n : Nat) :
    prevDay^[n] (nextDay^[n] d) = d := by
  induction n generalizing d with
  | zero => simp
  | succ n ih =>
      rw [Function.iterate_succ_apply, Function.iterate_succ_apply']
      rw [prevDay_nextDay (valid_nextDay_iterate h n)]
      exact ih h

theorem nextDay_prevDay_iterate {d : Date} (h : Valid d) (n : Nat) :
    nextDay^[n] (prevDay^[n] d) = d := by
  induction n generalizing d with
  | zero => simp
  | succ n ih =>
      rw [Function.iterate_succ_apply, Function.iterate_succ_apply']
      rw [nextDay_prevDay (valid_prevDay_iterate h n)]
      exact ih h

/-- Shared cancellation lemma: adding `k` days then `-k` days to a valid date
is the identity. -/
theorem addDays_cancel {d : Date} (h : Valid d) (k : Int) :
    addDays (addDays d k) (-k) = d := by
  unfold addDays
  rcases le_or_lt 0 k with hk | hk
  · rcases eq_or_lt_of_le hk with rfl | hpos
    · simp
    · rw [if_pos hk, if_neg (by omega)]
      simp only [neg_neg]
      exact prevDay_nextDay_iterate h k.toNat
  · rw [if_pos (show (0 : Int) ≤ -k by omega), if_neg (show ¬ (0 : Int) ≤ k by omega)]
    exact nextDay_prevDay_iterate h (-k).toNat

theorem valid_addDays {d : Date} (h : Valid d) (k : Int) : Valid (addDays d k) := by
  unfold addDays
  split_ifs
  · exact valid_nextDay_iterate h _
  · exact valid_prevDay_iterate h _

theorem toRD_nextDay_iterate {d : Date} (h : Valid d) (n : Nat) :
    toRD (nextDay^[n] d) = toRD d + n := by
  induction n generalizing d with
  | zero => simp
  | succ n ih =>
      rw [Function.iterate_succ_apply]
      rw [ih (valid_nextDay h), toRD_nextDay h]
      push_cast
      ring

theorem toRD_prevDay_iterate {d : Date} (h : Valid d) (n : Nat) :
    toRD (prevDay^[n] d) = toRD d - n := by
  induction n generalizing d with
  | zero => simp
  | succ n ih =>
      rw [Function.iterate_succ_apply]
      rw [ih (valid_prevDay h), toRD_prevDay h]
      push_cast
      ring

theorem toRD_addDays {d : Date} (h : Valid d) (k : Int) :
    toRD (addDays d k) = toRD d + k := by
  unfold addDays
  split_ifs with hk
  · rw [toRD_nextDay_iterate h]
    omega
  · rw [toRD_prevDay_iterate h]
    omega

/-! ### The engine's data model: habits, completion records, completion index -/

/-- A habit as the engine consumes it (dashboard `Habit` type). -/
structure Habit where
  id : String
  name : String
  color : String
deriving DecidableEq

/-- A raw completion record `{habitId, date, completed}` (analytics `HabitLog`
type; one Firestore `habitLogs` document). -/
structure LogRecord where
  habitId : String
  date : Date
  completed : Bool
deriving DecidableEq

/-- The dashboard's `HabitLogMap`: a JS object mapping habit ids to `Set`s of
completed day identifiers, embedded as an association list (JS object keys are
unique; well-formedness is carried as a `Nodup` hypothesis where needed). -/
abbrev LogMap := List (String × Finset Date)

/-- Insertion step of the index builder: `map[habitId].add(date)`, creating the
set on first use (key order of the JS object does not affect lookups). -/
def insertLog (m : LogMap) (h : String) (d : Date) : LogMap :=
  match m with
  | [] => [(h, {d})]
  | (k, s) :: rest => if k = h then (k, insert d s) :: rest else (k, s) :: insertLog rest h d

/-- Embedding of the dashboard's `habitLogs` snapshot handler: iterate the
records once; `if (!data.completed) return;` skips incomplete records, and
completed records have their date added to the habit's set. -/
def buildIndex (records : List LogRecord) : LogMap :=
  records.foldl (fun m r => if r.completed then insertLog m r.habitId r.date else m) []

/-- Membership test `logs[habitId]?.has(d)` on the index. -/
def memIndex (logs : LogMap) (habitId : String) (d : Date) : Bool :=
  match logs.lookup habitId with
  | some s => decide (d ∈ s)
  | none => false

/-! ### Streaks -/

theorem filter_dateLe_prevDay_ssubset {s : Finset Date} {cursor : Date}
    (h : cursor ∈ s) :
    s.filter (fun x => dateLe x (prevDay cursor)) ⊂ s.filter (fun x => dateLe x cursor) := by
  have hsub : s.filter (fun x => dateLe x (prevDay cursor)) ⊆
      s.filter (fun x => dateLe x cursor) := by
    intro x hx
    simp only [Finset.mem_filter] at hx ⊢
    exact ⟨hx.1, dateLe_of_le_lt hx.2 (prevDay_dateLt cursor)⟩
  refine (Finset.ssubset_iff_of_subset hsub).mpr ⟨cursor, ?_, ?_⟩
  · simp only [Finset.mem_filter]
    exact ⟨h, Or.inr rfl⟩
  · simp only [Finset.mem_filter, not_and]
    intro _
    intro hle
    rcases hle with hlt | heq
    · exact dateLt_irrefl cursor (dateLt_trans hlt (prevDay_dateLt cursor))
    · have hplt := prevDay_dateLt cursor
      rw [← heq] at hplt
      exact dateLt_irrefl cursor hplt

/-- The dashboard `getStreak` while-loop: walk back one day at a time while the
cursor is in the completed-date set.  It terminates because each successful
check consumes a distinct, strictly smaller member of the (finite) set. -/
def streakGo (s : Finset Date) (cursor : Date) : Nat :=
  if cursor ∈ s then 1 + streakGo s (prevDay cursor) else 0
termination_by (s.filter (fun x => dateLe x cursor)).card
decreasing_by
  exact Finset.card_lt_card (filter_dateLe_prevDay_ssubset (by assumption))

theorem streakGo_mem {s : Finset Date} {cursor : Date} (h : cursor ∈ s) :
    streakGo s cursor = 1 + streakGo s (prevDay cursor) := by
  rw [streakGo]
  exact if_pos h

theorem streakGo_not_mem {s : Finset Date} {cursor : Date} (h : cursor ∉ s) :
    streakGo s cursor = 0 := by
  rw [streakGo]
  exact if_neg h

/-- Embedding of the dashboard's `getStreak(habitId, asOfDate)` (the `logs`
state is passed explicitly; a habit with no set yields 0). -/
def getStreak (logs : LogMap) (habitId : String) (asOfDate : Date) : Nat :=
  match logs.lookup habitId with
  | none => 0
  | some s => streakGo s asOfDate

/-- The analytics `calculateStreak` loop body: starting from a day `key`, stop
as soon as the key leaves the optional range, count while the key is in the
completed set. -/
def calcStreakGo (s : Finset Date) (range : Option (List Date)) (key : Date) : Nat :=
  match range with
  | some L =>
      if key ∈ L then
        (if key ∈ s then 1 + calcStreakGo s (some L) (prevDay key) else 0)
      else 0
  | none => if key ∈ s then 1 + calcStreakGo s none (prevDay key) else 0
termination_by (s.filter (fun x => dateLe x key)).card
decreasing_by
  · exact Finset.card_lt_card (filter_dateLe_prevDay_ssubset (by assumption))
  · exact Finset.card_lt_card (filter_dateLe_prevDay_ssubset (by assumption))

/-- Embedding of analytics `calculateStreak(dates, rangeDays?)`.  The source
walks back from `new Date()` (the ambient clock) rendered through
`toISOString`; the clock's current calendar day is made an explicit `now`
argument here. -/
def calculateStreak (dates : List Date) (rangeDays : Option (List Date)) (now : Date) : Nat :=
  calcStreakGo dates.toFinset rangeDays now

/-- One step of the analytics `calculateBestStreak` fold over the sorted
deduplicated dates: state is (maxStreak, currentStreak, prevDate), dates are
carried as their day numbers (JS compares `getTime()` differences; one day is
`diffDays === 1`). -/
def bestStep (st : Nat × Nat × Option Int) (x : Int) : Nat × Nat × Option Int :=
  match st with
  | (m, c, some p) => if x - p = 1 then (m, c + 1, some x) else (Nat.max m c, 1, some x)
  | (m, _, none) => (m, 1, some x)

/-- Final `Math.max(maxStreak, currentStreak)` of `calculateBestStreak`. -/
def bestResult (st : Nat × Nat × Option Int) : Nat :=
  Nat.max st.1 st.2.1

/-- The `filteredDates` step of analytics `calculateBestStreak`: restrict to
the optional range. -/
def filteredDates (dates : List Date) (rangeDays : Option (List Date)) : List Date :=
  match rangeDays with
  | some L => dates.filter (fun d => decide (d ∈ L))
  | none => dates

/-- Embedding of analytics `calculateBestStreak(dates, rangeDays?)`: filter to
the range, deduplicate and sort ascending (string sort of canonical
`YYYY-MM-DD` ids is chronological, i.e. sorts by day number — we sort the day
numbers), then scan for the longest run of consecutive days. -/
def calculateBestStreak (dates : List Date) (rangeDays : Option (List Date)) : Nat :=
  bestResult (((((filteredDates dates rangeDays).map toRD).toFinset).sort (· ≤ ·)).foldl
    bestStep (0, 0, none))

/-! ### Date ranges -/

/-- Fuel-indexed unfolding of the JS pattern
`while (curr <= endD) { push(curr); curr.setDate(curr.getDate() + 1) }`
(dashboard year view and analytics `generateCustomDateRange`).  JS compares the
dates' timestamps, i.e. their day numbers.  The fuel at both call sites is the
number of days from `curr` to `endD` inclusive, which exactly covers the loop. -/
def dateLoop (endD : Date) : Nat → Date → List Date
  | 0, _ => []
  | Nat.succ n, cur =>
      if toRD cur ≤ toRD endD then cur :: dateLoop endD n (nextDay cur) else []

/-- Embedding of analytics `generateCustomDateRange(start, end)`. -/
def generateCustomDateRange (start endD : Date) : List Date :=
  dateLoop endD (toRD endD - toRD start + 1).toNat start

/-- JS `getDay()` day-of-week (0 = Sunday): day number modulo 7, anchored so
that `1970-01-01` (day number 719163) is a Thursday (4). -/
def jsGetDay (d : Date) : Int :=
  toRD d % 7

/-- The dashboard's `ViewMode`. -/
inductive ViewMode where
  | week
  | month
  | year
  | allTime
deriving DecidableEq

/-- The local calendar day of the instant obtained by parsing a `YYYY-MM-DD`
string with `new Date(string)`: per ECMAScript a date-only string parses as
UTC midnight, while the `getFullYear`/`getMonth`/`getDate`/`getDay` reads that
follow are local-time accessors.  With the host's UTC offset `tz` (in minutes,
magnitude below 24 hours, assumed fixed across the computation, i.e. no DST
transition at the parsed instant), the local fields lie on the parsed calendar
day itself when `0 ≤ tz` and on the previous calendar day when `tz < 0`.
Subsequent `setDate`/`setMonth`/`setFullYear` mutations and the
`getLocalDateString` rendering act on local calendar fields only, so this
single shift captures the host-timezone dependence of the dashboard's anchor
handling. -/
def parseLocalDay (tz : Int) (d : Date) : Date :=
  if 0 ≤ tz then d else prevDay d

theorem parseLocalDay_nonneg {tz : Int} (htz : 0 ≤ tz) (d : Date) :
    parseLocalDay tz d = d := by
  unfold parseLocalDay
  exact if_pos htz

theorem parseLocalDay_neg {tz : Int} (htz : tz < 0) (d : Date) :
    parseLocalDay tz d = prevDay d := by
  unfold parseLocalDay
  exact if_neg (by omega)

/-- Embedding of the dashboard's `dateRange` memo: the ordered day-identifier
sequence for a view mode and the `viewBaseDate` anchor, given the host's UTC
offset `tz` in minutes.  The week/month/year branches read the anchor through
`const base = new Date(viewBaseDate)` — a UTC parse followed by local-field
reads, modeled by `parseLocalDay` — while the allTime branch feeds the anchor
string to `addDays`, which parses local fields directly and is therefore
timezone-independent. -/
def dateRange (tz : Int) (view : ViewMode) (viewBaseDate : Date) : List Date :=
  match view with
  | .week =>
      let base := parseLocalDay tz viewBaseDate
      let day := if jsGetDay base = 0 then 7 else jsGetDay base
      let startDate := addDays base (1 - day)
      (List.range 7).map (fun (i : Nat) => addDays startDate (i : Int))
  | .month =>
      let base := parseLocalDay tz viewBaseDate
      (List.range (daysInMonth base.year base.month).toNat).map
        (fun (i : Nat) => ⟨base.year, base.month, (i : Int) + 1⟩)
  | .year =>
      let base := parseLocalDay tz viewBaseDate
      dateLoop ⟨base.year, 12, 31⟩
        (toRD ⟨base.year, 12, 31⟩ - toRD ⟨base.year, 1, 1⟩ + 1).toNat
        ⟨base.year, 1, 1⟩
  | .allTime =>
      (List.range 90).map (fun (i : Nat) => addDays viewBaseDate (-89 + (i : Int)))

/-- JS `Date` field normalization for an in-range month with a (possibly too
large) day-of-month: roll excess days into the following months.  This is the
normalization `setMonth`/`setFullYear` perform when the current day-of-month
does not exist in the newly selected month (day underflow cannot arise at
those call sites, whose day was a valid one, hence at least 1). -/
def rollDay (y m d : Int) : Date :=
  if d ≤ daysInMonth y m then ⟨y, m, d⟩
  else if m < 12 then rollDay y (m + 1) (d - daysInMonth y m)
  else rollDay (y + 1) 1 (d - daysInMonth y m)
termination_by d.toNat
decreasing_by
  · have := daysInMonth_lb y m
    omega
  · have := daysInMonth_lb y m
    omega

/-- JS `d.setMonth(newMonth)` with our 1-based months: the month index wraps
into adjacent years (floor division), then the retained day-of-month is
normalized against the new month's length. -/
def setMonthJS (dt : Date) (newM : Int) : Date :=
  rollDay (dt.year + (newM - 1) / 12) ((newM - 1) % 12 + 1) dt.day

/-- JS `d.setFullYear(newYear)`: the retained month/day are normalized against
the new year (only Feb 29 can overflow). -/
def setFullYearJS (dt : Date) (newY : Int) : Date :=
  rollDay newY dt.month dt.day

/-- Embedding of the dashboard's `navigateView(direction)` anchor update,
given the host's UTC offset `tz` in minutes.  Every branch mutates
`const d = new Date(viewBaseDate)` — UTC parse, local-field reads and writes —
so the shift applies to `parseLocalDay tz viewBaseDate`; the result is
rendered back through `getLocalDateString` (local fields). -/
def navigateView (tz : Int) (view : ViewMode) (viewBaseDate : Date) (direction : Int) : Date :=
  match view with
  | .week => addDays (parseLocalDay tz viewBaseDate) (direction * 7)
  | .month => setMonthJS (parseLocalDay tz viewBaseDate)
      ((parseLocalDay tz viewBaseDate).month + direction)
  | .year => setFullYearJS (parseLocalDay tz viewBaseDate)
      ((parseLocalDay tz viewBaseDate).year + direction)
  | .allTime => addDays (parseLocalDay tz viewBaseDate) (direction * 90)

/-- Embedding of analytics `generateDateRange(days)`: the `days` consecutive
day identifiers ending at the ambient clock's current day, which is made an
explicit `now` argument here (the source derives each identifier from
`new Date()` shifted and rendered through UTC `toISOString`). -/
def generateDateRange (days : Nat) (now : Date) : List Date :=
  (List.range days).map (fun (i : Nat) => addDays now (-((days : Int) - 1 - (i : Int))))

/-! ### Completion statistics -/

/-- JS `Math.round` on a nonnegative rational: round half toward positive
infinity. -/
def mathRound (q : ℚ) : Int :=
  ⌊q + 1 / 2⌋

/-- Count of completed (habit, day) pairs inside the range, as the dashboard
computes `totalCompleted`: sum over the entries of the log map of how many
dates of the entry's set lie in the range. -/
def totalCompletedCount (logs : LogMap) (range : List Date) : Nat :=
  (logs.map (fun p => (p.2.filter (fun d => d ∈ range)).card)).sum

/-- Embedding of the dashboard's `progressPercent`:
`totalPossible === 0 ? 0 : Math.round((totalCompleted / totalPossible) * 100)`. -/
def progressPercent (habits : List Habit) (range : List Date) (logs : LogMap) : Int :=
  if habits.length * range.length = 0 then 0
  else mathRound (((totalCompletedCount logs range : ℚ) /
    ((habits.length * range.length : Nat) : ℚ)) * 100)

/-! ### Index-builder characterization (used by claim C2) -/

theorem memIndex_nil (h : String) (d : Date) : memIndex [] h d = false := by
  rfl

theorem lookup_cons_self {β : Type} (k : String) (b : β) (l : List (String × β)) :
    List.lookup k ((k, b) :: l) = some b := by
  simp [List.lookup]

theorem lookup_cons_ne {β : Type} {q k : String} (hqk : q ≠ k) (b : β)
    (l : List (String × β)) :
    List.lookup k ((q, b) :: l) = List.lookup k l := by
  simp only [List.lookup]
  rw [beq_eq_false_iff_ne.mpr (Ne.symm hqk)]

theorem memIndex_cons_self (hid : String) (s : Finset Date) (rest : LogMap) (d : Date) :
    memIndex ((hid, s) :: rest) hid d = decide (d ∈ s) := by
  unfold memIndex
  rw [lookup_cons_self]

theorem memIndex_cons_ne {q hid : String} (hq : q ≠ hid) (s : Finset Date)
    (rest : LogMap) (d : Date) :
    memIndex ((q, s) :: rest) hid d = memIndex rest hid d := by
  unfold memIndex
  rw [lookup_cons_ne hq]

theorem memIndex_insertLog (m : LogMap) (k : String) (x : Date) (h : String) (d : Date) :
    (memIndex (insertLog m k x) h d = true) ↔
      (memIndex m h d = true ∨ (k = h ∧ x = d)) := by
  induction m with
  | nil =>
      simp only [insertLog]
      by_cases hk : k = h
      · subst hk
        rw [memIndex_cons_self]
        simp [memIndex_nil, eq_comm]
      · rw [memIndex_cons_ne hk]
        simp [memIndex_nil, hk]
  | cons p rest ih =>
      obtain ⟨q, s⟩ := p
      simp only [insertLog]
      by_cases hq : q = k
      · subst hq
        rw [if_pos rfl]
        by_cases hh : q = h
        · subst hh
          rw [memIndex_cons_self, memIndex_cons_self]
          simp only [decide_eq_true_eq, Finset.mem_insert]
          constructor
          · rintro (rfl | hds)
            · exact Or.inr (by simp)
            · exact Or.inl hds
          · rintro (hds | hxd)
            · exact Or.inr hds
            · obtain ⟨-, rfl⟩ : True ∧ x = d := by simpa using hxd
              exact Or.inl (by simp)
        · rw [memIndex_cons_ne hh, memIndex_cons_ne hh]
          simp [hh]
      · rw [if_neg hq]
        by_cases hh : q = h
        · subst hh
          rw [memIndex_cons_self, memIndex_cons_self]
          have hk : ¬ (k = q ∧ x = d) := fun hc => hq hc.1.symm
          simp [hk]
        · rw [memIndex_cons_ne hh, memIndex_cons_ne hh]
          exact ih

theorem memIndex_buildIndex_foldl (records : List LogRecord) (m : LogMap)
    (h : String) (d : Date) :
    (memIndex (records.foldl
        (fun m r => if r.completed then insertLog m r.habitId r.date else m) m) h d = true) ↔
      (memIndex m h d = true ∨
        ∃ r ∈ records, r.habitId = h ∧ r.date = d ∧ r.completed = true) := by
  induction records generalizing m with
  | nil => simp
  | cons r rs ih =>
      simp only [List.foldl_cons]
      rw [ih]
      by_cases hc : r.completed
      · rw [if_pos hc, memIndex_insertLog]
        constructor
        · rintro (⟨hm | ⟨hk, hx⟩⟩ | hex)
          · exact Or.inl hm
          · exact Or.inr ⟨r, List.mem_cons_self r rs, hk, hx, hc⟩
          · obtain ⟨r', hr', hprops⟩ := hex
            exact Or.inr ⟨r', List.mem_cons_of_mem r hr', hprops⟩
        · rintro (hm | ⟨r', hr', hk, hx, hcomp⟩)
          · exact Or.inl (Or.inl hm)
          · rcases List.mem_cons.mp hr' with rfl | hmem
            · exact Or.inl (Or.inr ⟨hk, hx⟩)
            · exact Or.inr ⟨r', hmem, hk, hx, hcomp⟩
      · rw [if_neg hc]
        constructor
        · rintro (hm | ⟨r', hr', hprops⟩)
          · exact Or.inl hm
          · exact Or.inr ⟨r', List.mem_cons_of_mem r hr', hprops⟩
        · rintro (hm | ⟨r', hr', hk, hx, hcomp⟩)
          · exact Or.inl hm
          · rcases List.mem_cons.mp hr' with rfl | hmem
            · exact absurd hcomp (by simpa using hc)
            · exact Or.inr ⟨r', hmem, hk, hx, hcomp⟩

/-! ### Claim C1 -/

/-- C1: `currentStreak(habitId, asOfDate, index)` counts consecutive completed
days walking backward from `asOfDate`, stopping at the first uncompleted or
absent day: a habit completed only on `asOfDate` has streak 1; a habit never
completed as of `asOfDate` (no set at all, or only completions strictly after
`asOfDate`) has streak 0; and a habit completed exactly on 2024-01-01..03 has
streak 3 as of 2024-01-03 and streak 0 as of 2024-01-07. -/
theorem C1_currentStreak_spec :
    (∀ (logs : LogMap) (hid : String) (asOf : Date) (s : Finset Date),
        logs.lookup hid = some s → s = {asOf} → getStreak logs hid asOf = 1) ∧
    (∀ (logs : LogMap) (hid : String) (asOf : Date),
        (logs.lookup hid = none → getStreak logs hid asOf = 0) ∧
        (∀ s, logs.lookup hid = some s → (∀ d ∈ s, ¬ dateLe d asOf) →
            getStreak logs hid asOf = 0)) ∧
    (getStreak [("h1", ({⟨2024, 1, 1⟩, ⟨2024, 1, 2⟩, ⟨2024, 1, 3⟩} : Finset Date))]
        "h1" ⟨2024, 1, 3⟩ = 3) ∧
    (getStreak [("h1", ({⟨2024, 1, 1⟩, ⟨2024, 1, 2⟩, ⟨2024, 1, 3⟩} : Finset Date))]
        "h1" ⟨2024, 1, 7⟩ = 0) := by
  refine ⟨?_, ?_, ?_, ?_⟩
  · intro logs hid asOf s hlk hs
    subst hs
    unfold getStreak
    rw [hlk]
    dsimp only
    have hmem : asOf ∈ ({asOf} : Finset Date) := Finset.mem_singleton_self asOf
    rw [streakGo_mem hmem]
    have hnot : prevDay asOf ∉ ({asOf} : Finset Date) := by
      simp only [Finset.mem_singleton]
      intro he
      have := prevDay_dateLt asOf
      rw [he] at this
      exact dateLt_irrefl asOf this
    rw [streakGo_not_mem hnot]
  · intro logs hid asOf
    constructor
    · intro hlk
      unfold getStreak
      rw [hlk]
    · intro s hlk hafter
      unfold getStreak
      rw [hlk]
      dsimp only
      have hnot : asOf ∉ s := by
        intro hmem
        exact hafter asOf hmem (Or.inr rfl)
      rw [streakGo_not_mem hnot]
  · show streakGo _ _ = 3
    rw [streakGo_mem (by decide), show prevDay ⟨2024, 1, 3⟩ = (⟨2024, 1, 2⟩ : Date) by decide]
    rw [streakGo_mem (by decide), show prevDay ⟨2024, 1, 2⟩ = (⟨2024, 1, 1⟩ : Date) by decide]
    rw [streakGo_mem (by decide), show prevDay ⟨2024, 1, 1⟩ = (⟨2023, 12, 31⟩ : Date) by decide]
    rw [streakGo_not_mem (by decide)]
  · show streakGo _ _ = 0
    rw [streakGo_not_mem (by decide)]

/-- Witness for C1 at concrete inputs. -/
theorem C1_witness :
    getStreak [("a", ({⟨2024, 5, 5⟩} : Finset Date))] "a" ⟨2024, 5, 5⟩ = 1 :=
  C1_currentStreak_spec.1 _ "a" ⟨2024, 5, 5⟩ _ (by decide) rfl

/-! ### Claim C2 -/

/-- C2 counterexample: on the record list
`[(h1, 2024-03-01, true), (h1, 2024-03-01, false)]` (in that order) the index
builder yields a set for `h1` that still CONTAINS 2024-03-01 — the claimed
last-write-wins exclusion does not happen, because the builder skips
`completed == false` records instead of removing their dates. -/
theorem C2_counterexample :
    memIndex (buildIndex
        [⟨"h1", ⟨2024, 3, 1⟩, true⟩, ⟨"h1", ⟨2024, 3, 1⟩, false⟩]) "h1" ⟨2024, 3, 1⟩ = true := by
  decide

/-- C2 amended: the index builder is insert-only — a date is in a habit's set
iff some record with that `(habitId, date)` and `completed == true` occurs
anywhere in the input; later `completed == false` records do not remove it
(last-write-wins holds only at the external store, which keeps at most one
record per key). -/
theorem C2_buildIndex_insert_only (records : List LogRecord) (hid : String) (d : Date) :
    (memIndex (buildIndex records) hid d = true) ↔
      ∃ r ∈ records, r.habitId = hid ∧ r.date = d ∧ r.completed = true := by
  unfold buildIndex
  rw [memIndex_buildIndex_foldl]
  simp [memIndex_nil]

/-! ### Claim C3 -/

/-- Modelled from the spec (§4.1, §7): `custom(start, end)` fails with
`InvalidRange` when `end < start`, otherwise returns every day from `start` to
`end` inclusive.  Stated only for comparison with the source's
`generateCustomDateRange`, which has no failure path. -/
def specCustomRange (start endD : Date) : Except String (List Date) :=
  if toRD endD < toRD start then .error "InvalidRange"
  else .ok (dateLoop endD (toRD endD - toRD start + 1).toNat start)

/-- C3 counterexample: for start 2024-01-05 and end 2024-01-01 (end < start)
the source's `generateCustomDateRange` returns normally with the empty
sequence — its `while (curr <= endD)` loop simply never runs and there is no
error path — whereas the claim (and spec) requires raising `InvalidRange`. -/
theorem C3_counterexample :
    generateCustomDateRange ⟨2024, 1, 5⟩ ⟨2024, 1, 1⟩ = ([] : List Date) ∧
      specCustomRange ⟨2024, 1, 5⟩ ⟨2024, 1, 1⟩ = .error "InvalidRange" := by
  constructor
  · rfl
  · rfl

/-- C3 amended: whenever `end < start`, the custom-range generator returns the
empty sequence (no error is raised; the loop body is never entered). -/
theorem C3_custom_range_empty (start endD : Date) (h : toRD endD < toRD start) :
    generateCustomDateRange start endD = [] := by
  unfold generateCustomDateRange
  have hz : (toRD endD - toRD start + 1).toNat = 0 := by omega
  rw [hz]
  rfl

/-- Witness for C3 at concrete inputs. -/
theorem C3_witness :
    toRD ⟨2024, 3, 1⟩ < toRD ⟨2024, 3, 5⟩ ∧
      generateCustomDateRange ⟨2024, 3, 5⟩ ⟨2024, 3, 1⟩ = [] :=
  ⟨by decide, C3_custom_range_empty _ _ (by decide)⟩

/-! ### Claim C10 -/

/-- C10: for every well-formed day identifier `d` and every integer `k`,
`addDays(addDays(d, k), -k) = d` — day addition and subtraction of the same
count are mutual inverses, across month, year and leap-day boundaries. -/
theorem C10_addDays_roundtrip (d : Date) (k : Int) (h : Valid d) :
    addDays (addDays d k) (-k) = d :=
  addDays_cancel h k

/-- Witness for C10 across the 2024 leap-day boundary. -/
theorem C10_witness :
    Valid ⟨2024, 2, 29⟩ ∧ addDays (addDays ⟨2024, 2, 29⟩ 2) (-2) = ⟨2024, 2, 29⟩ :=
  ⟨by decide, C10_addDays_roundtrip ⟨2024, 2, 29⟩ 2 (by decide)⟩

/-! ### Range lengths (claim C6) -/

theorem dateLoop_length (endD : Date) :
    ∀ (n : Nat) (cur : Date), Valid cur → (n : Int) = toRD endD - toRD cur + 1 →
      (dateLoop endD n cur).length = n := by
  intro n
  induction n with
  | zero => intro cur _ _; rfl
  | succ n ih =>
      intro cur hv hn
      have hle : toRD cur ≤ toRD endD := by push_cast at hn; omega
      have hnext : ((n : Nat) : Int) = toRD endD - toRD (nextDay cur) + 1 := by
        rw [toRD_nextDay hv]
        push_cast at hn ⊢
        omega
      simp only [dateLoop, if_pos hle, List.length_cons]
      rw [ih (nextDay cur) (valid_nextDay hv) hnext]

theorem year_loop_length (y : Int) :
    (dateLoop ⟨y, 12, 31⟩ (toRD ⟨y, 12, 31⟩ - toRD ⟨y, 1, 1⟩ + 1).toNat ⟨y, 1, 1⟩).length =
      if isLeap y then 366 else 365 := by
  have h1 : Valid (⟨y, 1, 1⟩ : Date) := by
    refine ⟨by norm_num, by norm_num, by norm_num, ?_⟩
    dsimp only
    have := daysInMonth_lb y 1
    omega
  have hdiff : toRD ⟨y, 12, 31⟩ - toRD ⟨y, 1, 1⟩ + 1 =
      if isLeap y then 366 else 365 := by
    unfold toRD
    dsimp only
    rw [cumDaysBefore_one, cumDaysBefore_twelve]
    split_ifs <;> omega
  have hpos : 0 ≤ toRD ⟨y, 12, 31⟩ - toRD ⟨y, 1, 1⟩ + 1 := by
    rw [hdiff]
    split_ifs <;> norm_num
  have hfuel : (((toRD ⟨y, 12, 31⟩ - toRD ⟨y, 1, 1⟩ + 1).toNat : Nat) : Int) =
      toRD ⟨y, 12, 31⟩ - toRD ⟨y, 1, 1⟩ + 1 :=
    Int.toNat_of_nonneg hpos
  have hlen := dateLoop_length ⟨y, 12, 31⟩
    (toRD ⟨y, 12, 31⟩ - toRD ⟨y, 1, 1⟩ + 1).toNat
    ⟨y, 1, 1⟩ h1 hfuel
  rw [hlen, hdiff]
  split_ifs <;> rfl

theorem year_range_length (tz : Int) (anchor : Date) :
    (dateRange tz .year anchor).length =
      if isLeap (parseLocalDay tz anchor).year then 366 else 365 := by
  show (dateLoop ⟨(parseLocalDay tz anchor).year, 12, 31⟩
      (toRD ⟨(parseLocalDay tz anchor).year, 12, 31⟩ -
        toRD ⟨(parseLocalDay tz anchor).year, 1, 1⟩ + 1).toNat
      ⟨(parseLocalDay tz anchor).year, 1, 1⟩).length = _
  exact year_loop_length (parseLocalDay tz anchor).year

/-- C6 counterexample: on a host at UTC offset −300 minutes (UTC−5), the month
view for anchor 2024-03-01 resolves the UTC-parsed anchor to the local day
2024-02-29, so the range has February's 29 entries, not the 31 days of the
anchor's calendar month (March 2024) that the claim asserts for every anchor. -/
theorem C6_counterexample :
    (dateRange (-300) .month ⟨2024, 3, 1⟩).length = 29 ∧
      (daysInMonth (2024 : Int) 3).toNat = 31 := by
  constructor
  · decide
  · decide

/-- C6 amended: the week range always has exactly 7 entries and the allTime
range exactly 90 (these branches are timezone-independent); the month range
has exactly the number of days of the calendar month of the *parsed base* —
the anchor itself under a nonnegative host UTC offset, the previous calendar
day under a negative offset (so a month-start anchor west of UTC yields the
previous month's length) — which under a nonnegative offset is the anchor's
own month (29 entries for a February 2024 anchor, 28 for February 2023, by the
Gregorian leap-year rule); and the year range has 366 entries when the parsed
base's year is a Gregorian leap year and 365 otherwise. -/
theorem C6_range_lengths :
    (∀ (tz : Int) (anchor : Date), (dateRange tz .week anchor).length = 7) ∧
    (∀ (tz : Int) (anchor : Date),
        (dateRange tz .month anchor).length =
          (daysInMonth (parseLocalDay tz anchor).year (parseLocalDay tz anchor).month).toNat) ∧
    (∀ (tz : Int) (anchor : Date), 0 ≤ tz →
        (dateRange tz .month anchor).length = (daysInMonth anchor.year anchor.month).toNat) ∧
    ((dateRange 0 .month ⟨2024, 2, 10⟩).length = 29) ∧
    ((dateRange 0 .month ⟨2023, 2, 10⟩).length = 28) ∧
    (∀ (tz : Int) (anchor : Date),
        (dateRange tz .year anchor).length =
          if isLeap (parseLocalDay tz anchor).year then 366 else 365) ∧
    (∀ (tz : Int) (anchor : Date), (dateRange tz .allTime anchor).length = 90) := by
  refine ⟨?_, ?_, ?_, ?_, ?_, year_range_length, ?_⟩
  · intro tz anchor
    simp only [dateRange, List.length_map, List.length_range]
  · intro tz anchor
    simp only [dateRange, List.length_map, List.length_range]
  · intro tz anchor htz
    simp only [dateRange, List.length_map, List.length_range, parseLocalDay_nonneg htz]
  · decide
  · decide
  · intro tz anchor
    simp only [dateRange, List.length_map, List.length_range]

/-- Witness for C6's offset-restricted month clause at offset 0. -/
theorem C6_witness :
    (0 : Int) ≤ 0 ∧
      (dateRange 0 .month ⟨2024, 2, 10⟩).length = (daysInMonth (2024 : Int) 2).toNat :=
  ⟨by norm_num, C6_range_lengths.2.2.1 0 ⟨2024, 2, 10⟩ (by norm_num)⟩

/-! ### Navigation round-trips (claim C7) -/

/-- Two dates lie in the same range-unit of a view: the same Monday-started
week (same week range), the same calendar month, the same calendar year, or
the same trailing 90-day window (same allTime range). -/
def sameUnit (tz : Int) : ViewMode → Date → Date → Prop
  | .week, a, b => dateRange tz .week a = dateRange tz .week b
  | .month, a, b => a.year = b.year ∧ a.month = b.month
  | .year, a, b => a.year = b.year
  | .allTime, a, b => dateRange tz .allTime a = dateRange tz .allTime b

/-- Under a nonnegative host UTC offset the anchor parses to its own calendar
day, so navigation reduces to the offset-0 case. -/
theorem navigateView_nonneg {tz : Int} (htz : 0 ≤ tz) (v : ViewMode) (b : Date)
    (dir : Int) :
    navigateView tz v b dir = navigateView 0 v b dir := by
  cases v <;>
    simp only [navigateView, parseLocalDay_nonneg htz,
      parseLocalDay_nonneg (le_refl (0 : Int))]

theorem rollDay_base {y m d : Int} (h : d ≤ daysInMonth y m) :
    rollDay y m d = ⟨y, m, d⟩ := by
  rw [rollDay]
  exact if_pos h

theorem rollDay_step {y m d : Int} (h : ¬ d ≤ daysInMonth y m) (hm : m < 12) :
    rollDay y m d = rollDay y (m + 1) (d - daysInMonth y m) := by
  rw [rollDay]
  rw [if_neg h, if_pos hm]

theorem navigateView_week_cancel {a : Date} (h : Valid a) :
    navigateView 0 .week (navigateView 0 .week a 1) (-1) = a := by
  simp only [navigateView, parseLocalDay_nonneg (le_refl (0 : Int))]
  have e1 : (1 : Int) * 7 = 7 := by norm_num
  have e2 : (-1 : Int) * 7 = -7 := by norm_num
  rw [e1, e2]
  exact addDays_cancel h 7

theorem navigateView_allTime_cancel {a : Date} (h : Valid a) :
    navigateView 0 .allTime (navigateView 0 .allTime a 1) (-1) = a := by
  simp only [navigateView, parseLocalDay_nonneg (le_refl (0 : Int))]
  have e1 : (1 : Int) * 90 = 90 := by norm_num
  have e2 : (-1 : Int) * 90 = -90 := by norm_num
  rw [e1, e2]
  exact addDays_cancel h 90

theorem daysInMonth_ne_two {m : Int} (hm : m ≠ 2) (y y' : Int) :
    daysInMonth y m = daysInMonth y' m := by
  unfold daysInMonth
  rw [if_neg hm, if_neg hm]

theorem daysInMonth_two_ub (y : Int) : daysInMonth y 2 ≤ 29 := by
  unfold daysInMonth
  norm_num
  split_ifs <;> omega

theorem navigateView_year_same {a : Date} (h : Valid a) :
    (navigateView 0 .year (navigateView 0 .year a 1) (-1)).year = a.year := by
  simp only [navigateView, parseLocalDay_nonneg (le_refl (0 : Int))]
  obtain ⟨y, m, dd⟩ := a
  obtain ⟨h1, h2, h3, h4⟩ := h
  dsimp only at h1 h2 h3 h4
  show (setFullYearJS (setFullYearJS ⟨y, m, dd⟩ (y + 1))
      ((setFullYearJS ⟨y, m, dd⟩ (y + 1)).year + (-1))).year = y
  unfold setFullYearJS
  dsimp only
  by_cases hd : dd ≤ daysInMonth (y + 1) m
  · rw [rollDay_base hd]
    dsimp only
    rw [show y + 1 + (-1) = y by ring, rollDay_base h4]
  · have hm2 : m = 2 := by
      by_contra hne
      have := daysInMonth_ne_two hne (y + 1) y
      omega
    subst hm2
    have hub1 := daysInMonth_two_ub y
    have hub2 := daysInMonth_two_ub (y + 1)
    have hlb2 := daysInMonth_lb (y + 1) 2
    have hdd : dd = 29 := by omega
    have h28 : daysInMonth (y + 1) 2 = 28 := by omega
    subst hdd
    have hb1 : (1 : Int) ≤ daysInMonth (y + 1) 3 := by
      have := daysInMonth_lb (y + 1) 3
      omega
    have hb2 : (1 : Int) ≤ daysInMonth y 3 := by
      have := daysInMonth_lb y 3
      omega
    rw [rollDay_step hd (by norm_num), h28,
        show (29 : Int) - 28 = 1 by norm_num,
        show (2 : Int) + 1 = 3 by norm_num,
        rollDay_base hb1]
    dsimp only
    rw [show y + 1 + (-1) = y by ring, rollDay_base hb2]

theorem navigateView_month_cancel {a : Date} (h : Valid a)
    (hd : a.day ≤ daysInMonth (if a.month = 12 then a.year + 1 else a.year)
        (if a.month = 12 then 1 else a.month + 1)) :
    navigateView 0 .month (navigateView 0 .month a 1) (-1) = a := by
  simp only [navigateView, parseLocalDay_nonneg (le_refl (0 : Int))]
  obtain ⟨y, m, dd⟩ := a
  obtain ⟨h1, h2, h3, h4⟩ := h
  dsimp only at h1 h2 h3 h4 hd
  show setMonthJS (setMonthJS ⟨y, m, dd⟩ (m + 1))
      ((setMonthJS ⟨y, m, dd⟩ (m + 1)).month + (-1)) = ⟨y, m, dd⟩
  by_cases hm12 : m = 12
  · subst hm12
    rw [if_pos rfl, if_pos rfl] at hd
    unfold setMonthJS
    dsimp only
    rw [show (12 + 1 - 1 : Int) / 12 = 1 by norm_num,
        show (12 + 1 - 1 : Int) % 12 + 1 = 1 by norm_num,
        rollDay_base hd]
    dsimp only
    rw [show (1 + (-1) - 1 : Int) / 12 = -1 by norm_num,
        show (1 + (-1) - 1 : Int) % 12 + 1 = 12 by norm_num,
        show y + 1 + (-1 : Int) = y by ring,
        rollDay_base h4]
  · rw [if_neg hm12, if_neg hm12] at hd
    unfold setMonthJS
    dsimp only
    rw [show y + (m + 1 - 1) / 12 = y by omega,
        show (m + 1 - 1) % 12 + 1 = m + 1 by omega,
        rollDay_base hd]
    dsimp only
    rw [show y + (m + 1 + (-1) - 1) / 12 = y by omega,
        show (m + 1 + (-1) - 1) % 12 + 1 = m by omega,
        rollDay_base h4]

/-- C7 counterexample: in month view with anchor 2024-01-31, shifting forward
then backward lands on 2024-02-02 (JS `setMonth` rolls the nonexistent Feb 31
into March, and the way back lands in February), which is not in the anchor's
month — the claimed round-trip stability fails for end-of-month anchors. -/
theorem C7_counterexample :
    navigateView 0 .month (navigateView 0 .month ⟨2024, 1, 31⟩ 1) (-1) = ⟨2024, 2, 2⟩ ∧
      ¬ sameUnit 0 .month ⟨2024, 1, 31⟩
          (navigateView 0 .month (navigateView 0 .month ⟨2024, 1, 31⟩ 1) (-1)) := by
  have e1 : navigateView 0 .month ⟨2024, 1, 31⟩ 1 = ⟨2024, 3, 2⟩ := by
    simp only [navigateView, parseLocalDay_nonneg (le_refl (0 : Int))]
    unfold setMonthJS
    dsimp only
    rw [show (2024 : Int) + (1 + 1 - 1) / 12 = 2024 by norm_num,
        show ((1 : Int) + 1 - 1) % 12 + 1 = 2 by norm_num,
        rollDay_step (by decide) (by norm_num),
        show (31 : Int) - daysInMonth 2024 2 = 2 by decide,
        show (2 : Int) + 1 = 3 by norm_num,
        rollDay_base (by decide)]
  rw [e1]
  have e2 : navigateView 0 .month ⟨2024, 3, 2⟩ (-1) = ⟨2024, 2, 2⟩ := by
    simp only [navigateView, parseLocalDay_nonneg (le_refl (0 : Int))]
    unfold setMonthJS
    dsimp only
    rw [show (2024 : Int) + (3 + (-1) - 1) / 12 = 2024 by norm_num,
        show ((3 : Int) + (-1) - 1) % 12 + 1 = 2 by norm_num,
        rollDay_base (by decide)]
  rw [e2]
  exact ⟨rfl, by intro hc; exact absurd hc.2 (by norm_num)⟩

/-- Under a negative host UTC offset the week round trip drifts: the
UTC-parsed base sits one local day behind the anchor at each of the two parses,
so forward is effectively +6 days and backward −8, landing two days before the
anchor.  Shown at offset −300 minutes (UTC−5). -/
theorem navigateView_week_drift {a : Date} (h : Valid a) :
    navigateView (-300) .week (navigateView (-300) .week a 1) (-1) = addDays a (-2) := by
  have hp : ∀ d : Date, parseLocalDay (-300) d = prevDay d := fun d =>
    parseLocalDay_neg (by norm_num) d
  simp only [navigateView, hp]
  rw [show (1 : Int) * 7 = 7 by norm_num, show (-1 : Int) * 7 = -7 by norm_num]
  have e1 : addDays (prevDay a) 7 = nextDay^[6] a := by
    unfold addDays
    rw [if_pos (by norm_num)]
    rw [show ((7 : Int)).toNat = 6 + 1 by decide]
    rw [Function.iterate_succ_apply]
    rw [nextDay_prevDay h]
  rw [e1]
  have e2 : prevDay (nextDay^[6] a) = nextDay^[5] a := by
    rw [show (6 : Nat) = 5 + 1 by norm_num, Function.iterate_succ_apply']
    exact prevDay_nextDay (valid_nextDay_iterate h 5)
  rw [e2]
  have e3 : addDays (nextDay^[5] a) (-7) = prevDay^[2] a := by
    unfold addDays
    rw [if_neg (by norm_num)]
    rw [show ((-(-7) : Int)).toNat = 2 + 5 by decide]
    rw [Function.iterate_add_apply]
    rw [prevDay_nextDay_iterate h 5]
  have e4 : addDays a (-2) = prevDay^[2] a := by
    unfold addDays
    rw [if_neg (by norm_num)]
    rw [show ((-(-2) : Int)).toNat = 2 by decide]
  rw [e3, e4]

/-- C7 amended: under a nonnegative host UTC offset (so the anchor string
parses to the anchor's own calendar day), shifting forward one unit then
backward one unit stays in the same range-unit for week and allTime (the round
trip is the identity), and for year (the round trip preserves the calendar
year, normalizing Feb 29 to Mar 1 in between); for month it holds — indeed the
round trip is the identity — whenever the anchor's day-of-month also exists in
the following month, while an end-of-month anchor such as 2024-01-31 lands one
month later (Feb 2).  Under a negative offset even the week round trip drifts:
at UTC−5 it returns the date two days before the anchor. -/
theorem C7_shift_roundtrip :
    (∀ (tz : Int) (a : Date), 0 ≤ tz → Valid a →
        sameUnit tz .week a (navigateView tz .week (navigateView tz .week a 1) (-1))) ∧
    (∀ (tz : Int) (a : Date), 0 ≤ tz → Valid a →
        sameUnit tz .allTime a
          (navigateView tz .allTime (navigateView tz .allTime a 1) (-1))) ∧
    (∀ (tz : Int) (a : Date), 0 ≤ tz → Valid a →
        sameUnit tz .year a (navigateView tz .year (navigateView tz .year a 1) (-1))) ∧
    (∀ (tz : Int) (a : Date), 0 ≤ tz → Valid a →
        a.day ≤ daysInMonth (if a.month = 12 then a.year + 1 else a.year)
          (if a.month = 12 then 1 else a.month + 1) →
        sameUnit tz .month a (navigateView tz .month (navigateView tz .month a 1) (-1))) ∧
    (∀ a : Date, Valid a →
        navigateView (-300) .week (navigateView (-300) .week a 1) (-1) = addDays a (-2)) := by
  refine ⟨?_, ?_, ?_, ?_, fun a h => navigateView_week_drift h⟩
  · intro tz a htz h
    have hr : navigateView tz .week (navigateView tz .week a 1) (-1) = a := by
      rw [navigateView_nonneg htz, navigateView_nonneg htz]
      exact navigateView_week_cancel h
    rw [hr]
    rfl
  · intro tz a htz h
    have hr : navigateView tz .allTime (navigateView tz .allTime a 1) (-1) = a := by
      rw [navigateView_nonneg htz, navigateView_nonneg htz]
      exact navigateView_allTime_cancel h
    rw [hr]
    rfl
  · intro tz a htz h
    show a.year = (navigateView tz .year (navigateView tz .year a 1) (-1)).year
    rw [navigateView_nonneg htz, navigateView_nonneg htz]
    exact (navigateView_year_same h).symm
  · intro tz a htz h hd
    have hr : navigateView tz .month (navigateView tz .month a 1) (-1) = a := by
      rw [navigateView_nonneg htz, navigateView_nonneg htz]
      exact navigateView_month_cancel h hd
    rw [hr]
    exact ⟨rfl, rfl⟩

/-- Witness for C7 at a mid-month anchor, host offset 0. -/
theorem C7_witness :
    (0 : Int) ≤ 0 ∧ Valid ⟨2024, 1, 15⟩ ∧
      (15 : Int) ≤ daysInMonth (if (1 : Int) = 12 then 2024 + 1 else 2024)
        (if (1 : Int) = 12 then 1 else 1 + 1) ∧
      sameUnit 0 .month ⟨2024, 1, 15⟩
        (navigateView 0 .month (navigateView 0 .month ⟨2024, 1, 15⟩ 1) (-1)) :=
  ⟨by norm_num, by decide, by decide,
    C7_shift_roundtrip.2.2.2.1 0 ⟨2024, 1, 15⟩ (by norm_num) (by decide) (by decide)⟩

/-! ### Completion-rate formula and bounds (claims C4, C5) -/

/-- The claim's `completedCount`: sum over the habit list of the number of
range dates present in that habit's completed-date set (second, spec-side
definition, for comparison with the source's `totalCompletedCount`, which sums
over the entries of the log map instead). -/
def specCompletedCount (habits : List Habit) (range : List Date) (logs : LogMap) : Nat :=
  (habits.map (fun h => (range.filter (fun d => memIndex logs h.id d)).length)).sum

/-- The claim's completion-rate formula
`round(100 * completedCount / (|habits| * |range|))` with the zero-denominator
guard (spec-side definition, for comparison with `progressPercent`). -/
def specCompletionRate (habits : List Habit) (range : List Date) (logs : LogMap) : Int :=
  if habits.length * range.length = 0 then 0
  else mathRound ((100 * (specCompletedCount habits range logs : ℚ)) /
    ((habits.length * range.length : Nat) : ℚ))

/-- Well-formedness of a log map against a habit list: keys are unique (JS
object keys), habit ids are unique (Firestore document ids), and every key
belongs to some habit of the list. -/
def IndexMatchesHabits (habits : List Habit) (logs : LogMap) : Prop :=
  (logs.map Prod.fst).Nodup ∧ (habits.map Habit.id).Nodup ∧
    ∀ k ∈ logs.map Prod.fst, k ∈ habits.map Habit.id

instance (habits : List Habit) (logs : LogMap) : Decidable (IndexMatchesHabits habits logs) := by
  unfold IndexMatchesHabits; infer_instance

theorem mathRound_intCast (n : Int) : mathRound (n : ℚ) = n := by
  unfold mathRound
  refine Int.floor_eq_iff.mpr ⟨by norm_num, ?_⟩
  norm_num

theorem count_filter_comm (s : Finset Date) (range : List Date) (hr : range.Nodup) :
    (s.filter (fun d => d ∈ range)).card =
      (range.filter (fun d => decide (d ∈ s))).length := by
  have he : s.filter (fun d => d ∈ range) = range.toFinset.filter (fun d => d ∈ s) := by
    ext d
    simp only [Finset.mem_filter, List.mem_toFinset]
    exact and_comm
  rw [he]
  have hnd : (range.filter (fun d => decide (d ∈ s))).Nodup := hr.filter _
  rw [← List.toFinset_card_of_nodup hnd, List.toFinset_filter]
  congr 1
  exact Finset.filter_congr (fun x _ => by simp)

theorem sum_lookup_cons (g : Finset Date → Nat) (k : String) (s : Finset Date)
    (rest : LogMap) (hk : List.lookup k rest = none) :
    ∀ habits : List Habit, (habits.map Habit.id).Nodup →
      (habits.map (fun h => match (List.lookup h.id ((k, s) :: rest)) with
          | some t => g t
          | none => 0)).sum
        = (if k ∈ habits.map Habit.id then g s else 0)
          + (habits.map (fun h => match (List.lookup h.id rest) with
              | some t => g t
              | none => 0)).sum := by
  intro habits
  induction habits with
  | nil => simp
  | cons h hs ih =>
      intro hnd
      obtain ⟨hnotin, hnd2⟩ := List.nodup_cons.mp hnd
      simp only [List.map_cons, List.sum_cons]
      by_cases hkh : h.id = k
      · have hksfirst : List.lookup h.id ((k, s) :: rest) = some s := by
          rw [hkh]
          exact lookup_cons_self k s rest
        have hkrest : List.lookup h.id rest = none := by rw [hkh]; exact hk
        rw [hksfirst, hkrest]
        dsimp only
        have hmem : k ∈ h.id :: hs.map Habit.id := by
          rw [← hkh]
          exact List.mem_cons_self _ _
        rw [if_pos hmem]
        have hcongr : (hs.map (fun h' => match (List.lookup h'.id ((k, s) :: rest)) with
            | some t => g t
            | none => 0))
            = hs.map (fun h' => match (List.lookup h'.id rest) with
              | some t => g t
              | none => 0) := by
          refine List.map_congr_left ?_
          intro h' hh'
          have hne : h'.id ≠ k := by
            intro he
            exact hnotin (by rw [hkh, ← he]; exact List.mem_map_of_mem Habit.id hh')
          rw [lookup_cons_ne (fun he => hne he.symm)]
        rw [hcongr]
        omega
      · have hfirst : List.lookup h.id ((k, s) :: rest) = List.lookup h.id rest :=
          lookup_cons_ne (fun he => hkh he.symm) s rest
        rw [hfirst, ih hnd2]
        have hiff : (k ∈ h.id :: hs.map Habit.id) ↔ (k ∈ hs.map Habit.id) := by
          rw [List.mem_cons]
          constructor
          · rintro (he | hm)
            · exact absurd he.symm hkh
            · exact hm
          · exact Or.inr
        by_cases hkmem : k ∈ hs.map Habit.id
        · rw [if_pos hkmem, if_pos (hiff.mpr hkmem)]
          omega
        · rw [if_neg hkmem, if_neg (fun hc => hkmem (hiff.mp hc))]
          omega

theorem lookup_eq_none_of_not_mem_keys {k : String} {logs : LogMap}
    (h : k ∉ logs.map Prod.fst) : List.lookup k logs = none := by
  induction logs with
  | nil => rfl
  | cons p rest ih =>
      obtain ⟨q, s⟩ := p
      simp only [List.map_cons, List.mem_cons] at h
      push_neg at h
      rw [lookup_cons_ne (fun he => h.1 he.symm), ih h.2]

theorem sum_lookup_eq (g : Finset Date → Nat) :
    ∀ (logs : LogMap) (habits : List Habit),
      (logs.map Prod.fst).Nodup → (habits.map Habit.id).Nodup →
      (∀ k ∈ logs.map Prod.fst, k ∈ habits.map Habit.id) →
      (habits.map (fun h => match (List.lookup h.id logs) with
          | some t => g t
          | none => 0)).sum
        = (logs.map (fun p => g p.2)).sum := by
  intro logs
  induction logs with
  | nil =>
      intro habits _ _ _
      simp [List.lookup]
  | cons p rest ih =>
      obtain ⟨k, s⟩ := p
      intro habits hkn hhn hsub
      rw [List.map_cons] at hkn
      dsimp only at hkn
      obtain ⟨hknotin, hkn2⟩ := List.nodup_cons.mp hkn
      have hkrest : List.lookup k rest = none := lookup_eq_none_of_not_mem_keys hknotin
      rw [sum_lookup_cons g k s rest hkrest habits hhn]
      have hkmem : k ∈ habits.map Habit.id := hsub k (by simp)
      rw [if_pos hkmem]
      rw [ih habits hkn2 hhn (fun q hq => hsub q (by simp [hq]))]
      simp

theorem totalCompleted_eq_specCompleted (habits : List Habit) (range : List Date)
    (logs : LogMap) (hw : IndexMatchesHabits habits logs) (hr : range.Nodup) :
    totalCompletedCount logs range = specCompletedCount habits range logs := by
  obtain ⟨hkn, hhn, hsub⟩ := hw
  unfold specCompletedCount
  have hper : habits.map (fun h => (range.filter (fun d => memIndex logs h.id d)).length)
      = habits.map (fun h => match (List.lookup h.id logs) with
          | some t => (range.filter (fun d => decide (d ∈ t))).length
          | none => 0) := by
    refine List.map_congr_left ?_
    intro h _
    cases hl : List.lookup h.id logs with
    | none =>
        simp [memIndex, hl]
    | some t =>
        simp [memIndex, hl]
  rw [hper, sum_lookup_eq _ logs habits hkn hhn hsub]
  unfold totalCompletedCount
  congr 1
  refine List.map_congr_left ?_
  intro p _
  exact count_filter_comm p.2 range hr

/-- Helper: the concrete orphan-key log map that breaks claims C4 and C5.  The
habit list contains only `h1`, but the log map carries an entry for a habit id
`h2` that is not in the list; the dashboard's sum counts it anyway. -/
theorem progressPercent_orphan_200 :
    progressPercent [⟨"h1", "A", "c"⟩] [⟨2024, 1, 1⟩]
        [("h1", {⟨2024, 1, 1⟩}), ("h2", {⟨2024, 1, 1⟩})] = 200 := by
  have hc : totalCompletedCount
      [("h1", ({⟨2024, 1, 1⟩} : Finset Date)), ("h2", {⟨2024, 1, 1⟩})] [⟨2024, 1, 1⟩] = 2 := by
    decide
  unfold progressPercent
  rw [if_neg (by norm_num), hc]
  norm_num [mathRound]

/-- C4 counterexample: with habit list `[h1]`, a one-day range and a log map
carrying an extra entry for a habit id `h2` not in the list, the dashboard
computes 200 while the claimed over-all-habits formula gives 100 — the source
sums over the log map's entries, not over the habit list. -/
theorem C4_counterexample :
    progressPercent [⟨"h1", "A", "c"⟩] [⟨2024, 1, 1⟩]
        [("h1", {⟨2024, 1, 1⟩}), ("h2", {⟨2024, 1, 1⟩})] = 200 ∧
      specCompletionRate [⟨"h1", "A", "c"⟩] [⟨2024, 1, 1⟩]
        [("h1", {⟨2024, 1, 1⟩}), ("h2", {⟨2024, 1, 1⟩})] = 100 := by
  constructor
  · exact progressPercent_orphan_200
  · have hc : specCompletedCount [⟨"h1", "A", "c"⟩] [⟨2024, 1, 1⟩]
        [("h1", ({⟨2024, 1, 1⟩} : Finset Date)), ("h2", {⟨2024, 1, 1⟩})] = 1 := by
      decide
    unfold specCompletionRate
    rw [if_neg (by norm_num), hc]
    norm_num [mathRound]

/-- Scenario D range: the ten days 2024-01-01 .. 2024-01-10. -/
def scenarioDRange : List Date :=
  [⟨2024, 1, 1⟩, ⟨2024, 1, 2⟩, ⟨2024, 1, 3⟩, ⟨2024, 1, 4⟩, ⟨2024, 1, 5⟩,
   ⟨2024, 1, 6⟩, ⟨2024, 1, 7⟩, ⟨2024, 1, 8⟩, ⟨2024, 1, 9⟩, ⟨2024, 1, 10⟩]

/-- Scenario D completion set of habit A: all ten days. -/
def scenarioDSet : Finset Date :=
  {⟨2024, 1, 1⟩, ⟨2024, 1, 2⟩, ⟨2024, 1, 3⟩, ⟨2024, 1, 4⟩, ⟨2024, 1, 5⟩,
   ⟨2024, 1, 6⟩, ⟨2024, 1, 7⟩, ⟨2024, 1, 8⟩, ⟨2024, 1, 9⟩, ⟨2024, 1, 10⟩}

/-- C4 amended: the dashboard's completion rate equals
`round(100 * completedCount / (|habits| * |range|))` with `completedCount`
summed over the habit list, provided the log map's keys are exactly drawn from
the habit list (keys and habit ids unique) — without that proviso the source's
sum over log-map entries can differ; it is 0 whenever `|habits| * |range| = 0`;
and in Scenario D (two habits, a 10-day range, one habit 10/10 and the other
0/10) it is 50. -/
theorem C4_completionRate_formula :
    (∀ (habits : List Habit) (range : List Date) (logs : LogMap),
        IndexMatchesHabits habits logs → range.Nodup →
        progressPercent habits range logs = specCompletionRate habits range logs) ∧
    (∀ (habits : List Habit) (range : List Date) (logs : LogMap),
        habits.length * range.length = 0 → progressPercent habits range logs = 0) ∧
    (progressPercent [⟨"A", "A", "red"⟩, ⟨"B", "B", "blue"⟩] scenarioDRange
        [("A", scenarioDSet)] = 50) := by
  refine ⟨?_, ?_, ?_⟩
  · intro habits range logs hw hr
    unfold progressPercent specCompletionRate
    rw [totalCompleted_eq_specCompleted habits range logs hw hr]
    by_cases hz : habits.length * range.length = 0
    · rw [if_pos hz, if_pos hz]
    · rw [if_neg hz, if_neg hz]
      congr 1
      ring
  · intro habits range logs hz
    unfold progressPercent
    rw [if_pos hz]
  · have hc : totalCompletedCount [("A", scenarioDSet)] scenarioDRange = 10 := by decide
    unfold progressPercent
    rw [if_neg (by decide), hc]
    norm_num [mathRound, scenarioDRange]

/-- Witness for C4 at a small well-formed input. -/
theorem C4_witness :
    IndexMatchesHabits [⟨"A", "A", "red"⟩] [("A", ({⟨2024, 1, 1⟩} : Finset Date))] ∧
      ([⟨2024, 1, 1⟩] : List Date).Nodup ∧
      progressPercent [⟨"A", "A", "red"⟩] [⟨2024, 1, 1⟩] [("A", {⟨2024, 1, 1⟩})] =
        specCompletionRate [⟨"A", "A", "red"⟩] [⟨2024, 1, 1⟩] [("A", {⟨2024, 1, 1⟩})] :=
  ⟨by decide, by decide, C4_completionRate_formula.1 _ _ _ (by decide) (by decide)⟩

theorem totalCompleted_le (habits : List Habit) (range : List Date) (logs : LogMap)
    (hw : IndexMatchesHabits habits logs) :
    totalCompletedCount logs range ≤ habits.length * range.length := by
  obtain ⟨hkn, hhn, hsub⟩ := hw
  unfold totalCompletedCount
  have hterm : ∀ x ∈ logs.map (fun p => (p.2.filter (fun d => d ∈ range)).card),
      x ≤ range.length := by
    intro x hx
    obtain ⟨p, _, rfl⟩ := List.mem_map.mp hx
    have hsubf : p.2.filter (fun d => d ∈ range) ⊆ range.toFinset := by
      intro d hd
      simp only [Finset.mem_filter] at hd
      exact List.mem_toFinset.mpr hd.2
    exact le_trans (Finset.card_le_card hsubf) range.toFinset_card_le
  have hsum := List.sum_le_card_nsmul _ range.length hterm
  rw [List.length_map] at hsum
  have hlen : logs.length ≤ habits.length := by
    have h1 : (logs.map Prod.fst).toFinset.card = logs.length := by
      rw [List.toFinset_card_of_nodup hkn, List.length_map]
    have h2 : (logs.map Prod.fst).toFinset ⊆ (habits.map Habit.id).toFinset := by
      intro k hk
      exact List.mem_toFinset.mpr (hsub k (List.mem_toFinset.mp hk))
    have h3 := Finset.card_le_card h2
    have h4 := (habits.map Habit.id).toFinset_card_le
    rw [List.length_map] at h4
    omega
  have hmul : logs.length * range.length ≤ habits.length * range.length :=
    mul_le_mul_right' hlen range.length
  have hs2 : (logs.map (fun p => (p.2.filter (fun d => d ∈ range)).card)).sum ≤
      logs.length * range.length := by simpa [smul_eq_mul] using hsum
  exact le_trans hs2 hmul

/-- C5 counterexample: with habit list `[h1]`, a one-day range and a log map
carrying an entry for an id `h2` not in the habit list, the dashboard rate is
200, outside the claimed interval `[0, 100]`. -/
theorem C5_counterexample :
    ¬ (progressPercent [⟨"h1", "A", "c"⟩] [⟨2024, 1, 1⟩]
        [("h1", {⟨2024, 1, 1⟩}), ("h2", {⟨2024, 1, 1⟩})] ≤ 100) := by
  rw [progressPercent_orphan_200]
  norm_num

/-- C5 amended: the completion rate lies in `[0, 100]` provided the completion
index carries no habit ids outside the habit list (index keys and habit ids
unique); without that proviso the rate can exceed 100 (it is 200 on the
counterexample input).  It equals exactly 0 when the habit list or the range is
empty, unconditionally. -/
theorem C5_rate_bounds :
    (∀ (habits : List Habit) (range : List Date) (logs : LogMap),
        IndexMatchesHabits habits logs →
        0 ≤ progressPercent habits range logs ∧ progressPercent habits range logs ≤ 100) ∧
    (∀ (range : List Date) (logs : LogMap), progressPercent [] range logs = 0) ∧
    (∀ (habits : List Habit) (logs : LogMap), progressPercent habits [] logs = 0) := by
  refine ⟨?_, ?_, ?_⟩
  · intro habits range logs hw
    unfold progressPercent
    by_cases hz : habits.length * range.length = 0
    · rw [if_pos hz]
      norm_num
    · rw [if_neg hz]
      have hc := totalCompleted_le habits range logs hw
      have hp : 0 < habits.length * range.length := Nat.pos_of_ne_zero hz
      have hq0 : (0 : ℚ) ≤ (totalCompletedCount logs range : ℚ) /
          ((habits.length * range.length : Nat) : ℚ) * 100 := by positivity
      have hq1 : (totalCompletedCount logs range : ℚ) /
          ((habits.length * range.length : Nat) : ℚ) * 100 ≤ 100 := by
        have hle : (totalCompletedCount logs range : ℚ) /
            ((habits.length * range.length : Nat) : ℚ) ≤ 1 := by
          rw [div_le_one (by exact_mod_cast hp)]
          exact_mod_cast hc
        have h2 := mul_le_mul_of_nonneg_right hle (by norm_num : (0 : ℚ) ≤ 100)
        simpa using h2
      unfold mathRound
      constructor
      · have hfl := Int.floor_le_floor (α := ℚ)
          (show (1 : ℚ) / 2 ≤ (totalCompletedCount logs range : ℚ) /
            ((habits.length * range.length : Nat) : ℚ) * 100 + 1 / 2 by linarith)
        have h0 : ⌊(1 : ℚ) / 2⌋ = 0 := by norm_num
        omega
      · have hfl := Int.floor_le_floor (α := ℚ)
          (show (totalCompletedCount logs range : ℚ) /
            ((habits.length * range.length : Nat) : ℚ) * 100 + 1 / 2 ≤
              (100 : ℚ) + 1 / 2 by linarith)
        have h0 : ⌊(100 : ℚ) + 1 / 2⌋ = 100 := by norm_num
        omega
  · intro range logs
    unfold progressPercent
    rw [if_pos (by simp)]
  · intro habits logs
    unfold progressPercent
    rw [if_pos (by simp)]

/-- Witness for C5 at a small well-formed input. -/
theorem C5_witness :
    IndexMatchesHabits [⟨"A", "A", "red"⟩] [("A", ({⟨2024, 1, 1⟩} : Finset Date))] ∧
      0 ≤ progressPercent [⟨"A", "A", "red"⟩] [⟨2024, 1, 1⟩] [("A", {⟨2024, 1, 1⟩})] ∧
      progressPercent [⟨"A", "A", "red"⟩] [⟨2024, 1, 1⟩] [("A", {⟨2024, 1, 1⟩})] ≤ 100 :=
  ⟨by decide,
    (C5_rate_bounds.1 _ [⟨2024, 1, 1⟩] _ (by decide)).1,
    (C5_rate_bounds.1 _ [⟨2024, 1, 1⟩] _ (by decide)).2⟩

/-! ### Clock dependence of the analytics operations (claim C9) -/

theorem calcStreakGo_none_mem {s : Finset Date} {key : Date} (h : key ∈ s) :
    calcStreakGo s none key = 1 + calcStreakGo s none (prevDay key) := by
  rw [calcStreakGo]
  exact if_pos h

theorem calcStreakGo_none_not_mem {s : Finset Date} {key : Date} (h : key ∉ s) :
    calcStreakGo s none key = 0 := by
  rw [calcStreakGo]
  exact if_neg h

theorem calcStreakGo_some_break {s : Finset Date} {L : List Date} {key : Date}
    (h : key ∉ L) :
    calcStreakGo s (some L) key = 0 := by
  rw [calcStreakGo]
  exact if_neg h

theorem calcStreakGo_some_mem {s : Finset Date} {L : List Date} {key : Date}
    (hL : key ∈ L) (hs : key ∈ s) :
    calcStreakGo s (some L) key = 1 + calcStreakGo s (some L) (prevDay key) := by
  rw [calcStreakGo]
  rw [if_pos hL, if_pos hs]

theorem calcStreakGo_some_stop {s : Finset Date} {L : List Date} {key : Date}
    (hL : key ∈ L) (hs : key ∉ s) :
    calcStreakGo s (some L) key = 0 := by
  rw [calcStreakGo]
  rw [if_pos hL, if_neg hs]

/-- C9 counterexample: analytics `calculateStreak` reads the ambient system
clock (`new Date()` inside the loop, rendered through UTC `toISOString`);
modeling the clock's calendar day as the explicit `now` argument, two runs with
the identical explicit argument (the completed-dates list, no range) but clock
days 2024-01-03 and 2024-01-07 return different streaks (1 vs 0) — the claimed
clock-independent determinism fails. -/
theorem C9_counterexample :
    ¬ (calculateStreak [⟨2024, 1, 3⟩] none ⟨2024, 1, 3⟩ =
        calculateStreak [⟨2024, 1, 3⟩] none ⟨2024, 1, 7⟩) := by
  intro hc
  have h1 : calculateStreak [⟨2024, 1, 3⟩] none ⟨2024, 1, 3⟩ = 1 := by
    unfold calculateStreak
    rw [calcStreakGo_none_mem (by decide),
        show prevDay ⟨2024, 1, 3⟩ = (⟨2024, 1, 2⟩ : Date) by decide,
        calcStreakGo_none_not_mem (by decide)]
  have h2 : calculateStreak [⟨2024, 1, 3⟩] none ⟨2024, 1, 7⟩ = 0 := by
    unfold calculateStreak
    rw [calcStreakGo_none_not_mem (by decide)]
  rw [h1, h2] at hc
  exact absurd hc (by norm_num)

/-- C9 amended: the engine is not a deterministic function of its explicit
inputs alone, in two independent ways.  The analytics operations
`generateDateRange` and `calculateStreak` read the ambient system clock
(`new Date()`) and derive day identifiers through UTC `toISOString`, so with
the clock's calendar day made explicit their outputs vary with it: the same
completed-dates list yields streak 1 at clock day 2024-01-03 but 0 at
2024-01-07, and `generateDateRange(2)` yields the two days ending at whichever
day the clock shows.  And the dashboard's `dateRange`/`navigateView` parse the
anchor string through a UTC-normalized timestamp and then read local calendar
fields, so identical explicit arguments under different host UTC offsets give
different outputs: the month range for anchor 2024-03-01 has 29 entries at
offset −300 minutes (UTC−5) but 31 at offset 0.  Only `getStreak` and
`addDays`, which parse day identifiers via local fields throughout, are
functions of their explicit arguments alone. -/
theorem C9_clock_dependence :
    (calculateStreak [⟨2024, 1, 3⟩] none ⟨2024, 1, 3⟩ = 1 ∧
      calculateStreak [⟨2024, 1, 3⟩] none ⟨2024, 1, 7⟩ = 0) ∧
    (generateDateRange 2 ⟨2024, 1, 3⟩ = [⟨2024, 1, 2⟩, ⟨2024, 1, 3⟩] ∧
      generateDateRange 2 ⟨2024, 1, 7⟩ = [⟨2024, 1, 6⟩, ⟨2024, 1, 7⟩]) ∧
    ((dateRange (-300) .month ⟨2024, 3, 1⟩).length = 29 ∧
      (dateRange 0 .month ⟨2024, 3, 1⟩).length = 31 ∧
      dateRange (-300) .month ⟨2024, 3, 1⟩ ≠ dateRange 0 .month ⟨2024, 3, 1⟩) := by
  refine ⟨⟨?_, ?_⟩, ⟨?_, ?_⟩, ?_, ?_, ?_⟩
  · unfold calculateStreak
    rw [calcStreakGo_none_mem (by decide),
        show prevDay ⟨2024, 1, 3⟩ = (⟨2024, 1, 2⟩ : Date) by decide,
        calcStreakGo_none_not_mem (by decide)]
  · unfold calculateStreak
    rw [calcStreakGo_none_not_mem (by decide)]
  · decide
  · decide
  · decide
  · decide
  · decide

/-! ### The best-streak fold dominates any run of consecutive days (claim C8) -/

theorem bestStep_some (m c : Nat) (q x : Int) :
    bestStep (m, c, some q) x =
      if x - q = 1 then (m, c + 1, some x) else (Nat.max m c, 1, some x) := rfl

theorem bestStep_none (m c : Nat) (x : Int) :
    bestStep (m, c, none) x = (m, 1, some x) := rfl

theorem bestFold_ge_m : ∀ (L : List Int) (m c : Nat) (p : Option Int),
    m ≤ bestResult (L.foldl bestStep (m, c, p)) := by
  intro L
  induction L with
  | nil =>
      intro m c p
      exact Nat.le_max_left m c
  | cons x T ih =>
      intro m c p
      rw [List.foldl_cons]
      cases p with
      | none =>
          rw [bestStep_none]
          exact ih m 1 (some x)
      | some q =>
          rw [bestStep_some]
          by_cases h : x - q = 1
          · rw [if_pos h]
            exact ih m (c + 1) (some x)
          · rw [if_neg h]
            exact le_trans (Nat.le_max_left m c) (ih (Nat.max m c) 1 (some x))

theorem bestFold_ge_c : ∀ (L : List Int) (m c : Nat) (q : Int),
    c ≤ bestResult (L.foldl bestStep (m, c, some q)) := by
  intro L
  induction L with
  | nil =>
      intro m c q
      exact Nat.le_max_right m c
  | cons x T ih =>
      intro m c q
      rw [List.foldl_cons, bestStep_some]
      by_cases h : x - q = 1
      · rw [if_pos h]
        exact le_trans (Nat.le_succ c) (ih m (c + 1) x)
      · rw [if_neg h]
        exact le_trans (Nat.le_max_right m c) (bestFold_ge_m T (Nat.max m c) 1 (some x))

theorem bestFold_chain (L : List Int) : L.Sorted (· < ·) →
    ∀ (m c : Nat) (q r : Int) (j : Nat),
      (∀ x ∈ L, q < x) → (∀ i : Nat, i < j → (r - (i : Int)) ∈ L) →
      r - (j : Int) = q →
      c + j ≤ bestResult (L.foldl bestStep (m, c, some q)) := by
  induction L with
  | nil =>
      intro _ m c q r j _ hrun hq
      have hj : j = 0 := by
        by_contra hne
        exact absurd (hrun 0 (by omega)) (List.not_mem_nil _)
      subst hj
      have hb : bestResult (m, c, some q) = Nat.max m c := rfl
      simp only [List.foldl_nil, hb, Nat.add_zero]
      exact Nat.le_max_right m c
  | cons x T ih =>
      intro hsort m c q r j hbound hrun hq
      obtain ⟨hxlt, hsortT⟩ := List.sorted_cons.mp hsort
      by_cases hj : j = 0
      · subst hj
        simpa using bestFold_ge_c (x :: T) m c q
      · have hq1 : r - ((j - 1 : Nat) : Int) ∈ x :: T := hrun (j - 1) (by omega)
        have hx : x = q + 1 := by
          rcases List.mem_cons.mp hq1 with he | hT
          · omega
          · have h1 := hxlt _ hT
            have h2 := hbound x (List.mem_cons_self x T)
            omega
        subst hx
        have hstep : bestStep (m, c, some q) (q + 1) = (m, c + 1, some (q + 1)) := by
          rw [bestStep_some, if_pos (by ring)]
        rw [List.foldl_cons, hstep]
        have hrunT : ∀ i : Nat, i < j - 1 → (r - (i : Int)) ∈ T := by
          intro i hi
          have hmem := hrun i (by omega)
          rcases List.mem_cons.mp hmem with he | hT
          · exfalso
            omega
          · exact hT
        have := ih hsortT m (c + 1) (q + 1) r (j - 1)
          (fun y hy => by have := hxlt y hy; omega)
          hrunT (by omega)
        omega

theorem bestStep_shape (st : Nat × Nat × Option Int) (x : Int) :
    ∃ m' c', bestStep st x = (m', c', some x) ∧ 1 ≤ c' := by
  obtain ⟨m, c, p⟩ := st
  cases p with
  | none => exact ⟨m, 1, rfl, le_refl 1⟩
  | some q =>
      rw [bestStep_some]
      by_cases h : x - q = 1
      · rw [if_pos h]
        exact ⟨m, c + 1, rfl, by omega⟩
      · rw [if_neg h]
        exact ⟨Nat.max m c, 1, rfl, le_refl 1⟩

theorem bestFold_run_le (L : List Int) : L.Sorted (· < ·) →
    ∀ (st : Nat × Nat × Option Int) (r : Int) (k : Nat),
      (∀ i : Nat, i < k → (r - (i : Int)) ∈ L) →
      k ≤ bestResult (L.foldl bestStep st) := by
  induction L with
  | nil =>
      intro _ st r k hrun
      have hk : k = 0 := by
        by_contra hne
        exact absurd (hrun 0 (by omega)) (List.not_mem_nil _)
      omega
  | cons x T ih =>
      intro hsort st r k hrun
      obtain ⟨hxlt, hsortT⟩ := List.sorted_cons.mp hsort
      by_cases hk : k = 0
      · omega
      · have hmin : r - ((k - 1 : Nat) : Int) ∈ x :: T := hrun (k - 1) (by omega)
        by_cases hx : r - ((k - 1 : Nat) : Int) = x
        · obtain ⟨m', c', hst, hc1⟩ := bestStep_shape st x
          rw [List.foldl_cons, hst]
          have hrunT : ∀ i : Nat, i < k - 1 → (r - (i : Int)) ∈ T := by
            intro i hi
            have hmem := hrun i (by omega)
            rcases List.mem_cons.mp hmem with he | hT
            · exfalso
              omega
            · exact hT
          have := bestFold_chain T hsortT m' c' x r (k - 1)
            (fun y hy => by have := hxlt y hy; omega)
            hrunT (by omega)
          omega
        · have hminT : r - ((k - 1 : Nat) : Int) ∈ T := by
            rcases List.mem_cons.mp hmin with he | hT
            · exact absurd he hx
            · exact hT
          have hrunT : ∀ i : Nat, i < k → (r - (i : Int)) ∈ T := by
            intro i hi
            have hmem := hrun i hi
            rcases List.mem_cons.mp hmem with he | hT
            · exfalso
              have h1 := hxlt _ hminT
              omega
            · exact hT
          rw [List.foldl_cons]
          exact ih hsortT (bestStep st x) r k hrunT

theorem calcStreakGo_run (s : Finset Date) (L : List Date) :
    ∀ (i : Nat) (key : Date), i < calcStreakGo s (some L) key →
      prevDay^[i] key ∈ s ∧ prevDay^[i] key ∈ L := by
  intro i
  induction i with
  | zero =>
      intro key hlt
      by_cases hL : key ∈ L
      · by_cases hs : key ∈ s
        · exact ⟨by simpa using hs, by simpa using hL⟩
        · rw [calcStreakGo_some_stop hL hs] at hlt
          omega
      · rw [calcStreakGo_some_break hL] at hlt
        omega
  | succ i ih =>
      intro key hlt
      by_cases hL : key ∈ L
      · by_cases hs : key ∈ s
        · rw [calcStreakGo_some_mem hL hs] at hlt
          have hi : i < calcStreakGo s (some L) (prevDay key) := by omega
          have hres := ih (prevDay key) hi
          rw [Function.iterate_succ_apply]
          exact hres
        · rw [calcStreakGo_some_stop hL hs] at hlt
          omega
      · rw [calcStreakGo_some_break hL] at hlt
        omega

/-- C8: when `asOfDate` is the last day of the range, `bestStreak` computed
over that range is at least `currentStreak` over the same range as of that day
(the current streak's days form one candidate run of consecutive completed
days inside the range). -/
theorem C8_best_ge_current (dates : List Date) (rangeL : List Date) (asOf : Date)
    (hv : Valid asOf) (_hlast : rangeL.getLast? = some asOf) :
    calculateStreak dates (some rangeL) asOf ≤ calculateBestStreak dates (some rangeL) := by
  have hrun : ∀ i : Nat, i < calculateStreak dates (some rangeL) asOf →
      prevDay^[i] asOf ∈ dates.toFinset ∧ prevDay^[i] asOf ∈ rangeL :=
    fun i hi => calcStreakGo_run dates.toFinset rangeL i asOf hi
  have hsort : (((filteredDates dates (some rangeL)).map toRD).toFinset.sort (· ≤ ·)).Sorted
      (· < ·) := Finset.sort_sorted_lt _
  have hmem : ∀ i : Nat, i < calculateStreak dates (some rangeL) asOf →
      (toRD asOf - (i : Int)) ∈
        ((filteredDates dates (some rangeL)).map toRD).toFinset.sort (· ≤ ·) := by
    intro i hi
    obtain ⟨hs, hL⟩ := hrun i hi
    have hdmem : prevDay^[i] asOf ∈ filteredDates dates (some rangeL) := by
      unfold filteredDates
      rw [List.mem_filter]
      exact ⟨List.mem_toFinset.mp hs, by simpa using hL⟩
    have hmap : toRD (prevDay^[i] asOf) ∈ (filteredDates dates (some rangeL)).map toRD :=
      List.mem_map_of_mem toRD hdmem
    rw [toRD_prevDay_iterate hv i] at hmap
    rw [Finset.mem_sort]
    exact List.mem_toFinset.mpr hmap
  exact bestFold_run_le _ hsort (0, 0, none) (toRD asOf)
    (calculateStreak dates (some rangeL) asOf) hmem

/-- Witness for C8: habit completed on 2024-01-02 and 2024-01-03 inside the
range 2024-01-01 .. 2024-01-03 whose last day is the as-of day. -/
theorem C8_witness :
    Valid ⟨2024, 1, 3⟩ ∧
      ([⟨2024, 1, 1⟩, ⟨2024, 1, 2⟩, ⟨2024, 1, 3⟩] : List Date).getLast? = some ⟨2024, 1, 3⟩ ∧
      calculateStreak [⟨2024, 1, 2⟩, ⟨2024, 1, 3⟩]
          (some [⟨2024, 1, 1⟩, ⟨2024, 1, 2⟩, ⟨2024, 1, 3⟩]) ⟨2024, 1, 3⟩ ≤
        calculateBestStreak [⟨2024, 1, 2⟩, ⟨2024, 1, 3⟩]
          (some [⟨2024, 1, 1⟩, ⟨2024, 1, 2⟩, ⟨2024, 1, 3⟩]) :=
  ⟨by decide, by decide,
    C8_best_ge_current [⟨2024, 1, 2⟩, ⟨2024, 1, 3⟩]
      [⟨2024, 1, 1⟩, ⟨2024, 1, 2⟩, ⟨2024, 1, 3⟩] ⟨2024, 1, 3⟩ (by decide) (by decide)⟩

end HabitTracker
